import Mathlib

/-!
Verification of the receiver-side packet-accounting core of
`modules/remote_bitrate_estimator/test/bwe.h` (webrtc testing bwe).

The header defines `LossAccount`, `PacketIdentifierNode`, the bounded
deduplicating `LinkedSet` (a recency-ordered list plus a key index), the
`BweReceiver` query surface, the `BandwidthEstimatorType` enumeration and the
`bwe_names` table.  Member-function bodies that live outside the header
(`bwe.cc`, `sequence_number_util.h`) are modelled from the specification; such
definitions carry a doc comment starting with `Modelled from the spec:`.

Machine integers are embedded as `Nat`/`Int`; `uint16_t` sequence numbers are
`Nat` values below 65536, `int64_t` values are `Int`, `size_t` counters are
`Nat` (with an explicit `% 2 ^ 32` model where overflow matters), and the
`float` loss ratio is embedded as an exact rational.
-/

namespace Bwe

/-- Modelled from the spec: the stateful 16-bit sequence-number unwrapper
(`SeqNumUnwrapper<uint16_t>` of `rtc_base/numerics/sequence_number_util.h`,
not under `src/`).  It remembers the last raw value and the last unwrapped
value. -/
structure SeqNumUnwrapper where
  last_value : Option Nat
  last_unwrapped : Int
  deriving DecidableEq

/-- Modelled from the spec: the very first call maps sequence number `N` to
`N` directly; every later call moves from the last unwrapped value by the
shortest signed distance congruent to the raw difference modulo 65536,
interpreting a forward distance below 32768 as forward and anything else as
backward (deterministic tie policy).  Returns the unwrapped value and the
updated unwrapper state. -/
def SeqNumUnwrapper.Unwrap (u : SeqNumUnwrapper) (value : Nat) :
    Int × SeqNumUnwrapper :=
  match u.last_value with
  | none => ((value : Int), ⟨some value, (value : Int)⟩)
  | some last =>
    let fwd : Int := ((value : Int) - (last : Int)) % 65536
    let delta : Int := if fwd < 32768 then fwd else fwd - 65536
    let nu : Int := u.last_unwrapped + delta
    (nu, ⟨some value, nu⟩)

/-- The fresh unwrapper state: no history yet. -/
def SeqNumUnwrapper.initial : SeqNumUnwrapper := ⟨none, 0⟩

/-- The signed step the unwrapper takes from raw value `last` to raw value
`v` (the `delta` of `SeqNumUnwrapper.Unwrap`). -/
def unwrapDelta (last v : Nat) : Int :=
  if ((v : Int) - (last : Int)) % 65536 < 32768
  then ((v : Int) - (last : Int)) % 65536
  else ((v : Int) - (last : Int)) % 65536 - 65536

/-- `PacketIdentifierNode` of `bwe.h`: the essential per-packet record kept by
the `LinkedSet`. -/
structure PacketIdentifierNode where
  unwrapped_sequence_number : Int
  send_time_ms : Int
  arrival_time_ms : Int
  payload_size : Nat
  deriving DecidableEq

/-- `LinkedSet` of `bwe.h`: a fixed-capacity, recency-ordered, deduplicating
container.  `list_` keeps the records most-recent-first; the key index
`map_` of the C++ code is kept consistent with `list_` by every operation, so
it is represented here by the key multiset of `list_` itself (its minimum and
maximum give `map_.begin()` and `map_.rbegin()`). -/
structure LinkedSet where
  capacity_ : Nat
  unwrapper_ : SeqNumUnwrapper
  list_ : List PacketIdentifierNode
  deriving DecidableEq

/-- A `LinkedSet` as first built: given capacity, empty list, fresh unwrapper. -/
def LinkedSet.init (capacity : Nat) : LinkedSet :=
  ⟨capacity, SeqNumUnwrapper.initial, []⟩

/-- Modelled from the spec: the `LinkedSet` constructor (body in `bwe.cc`, not
under `src/`) rejects a zero or negative capacity as a construction-time
contract violation and otherwise yields the empty set of that capacity. -/
def LinkedSet.create (capacity : Int) : Option LinkedSet :=
  if capacity ≤ 0 then none else some (LinkedSet.init capacity.toNat)

def LinkedSet.size (s : LinkedSet) : Nat := s.list_.length

def LinkedSet.empty (s : LinkedSet) : Bool := s.list_.isEmpty

def LinkedSet.capacity (s : LinkedSet) : Nat := s.capacity_

/-- The unwrapped keys currently stored, most-recent-first. -/
def LinkedSet.keys (s : LinkedSet) : List Int :=
  s.list_.map PacketIdentifierNode.unwrapped_sequence_number

/-- The largest stored key: `map_.rbegin()->first` of the C++ code. -/
def LinkedSet.newestKey (s : LinkedSet) : Int :=
  match s.keys with
  | [] => 0
  | k :: ks => ks.foldl max k

/-- The smallest stored key: `map_.begin()->first` of the C++ code. -/
def LinkedSet.oldestKey (s : LinkedSet) : Int :=
  match s.keys with
  | [] => 0
  | k :: ks => ks.foldl min k

/-- `LinkedSet::Range` (inline in `bwe.h`): 0 when empty, else the unwrapped
newest sequence number minus the unwrapped oldest sequence number plus 1. -/
def LinkedSet.Range (s : LinkedSet) : Int :=
  if s.list_.isEmpty then 0 else s.newestKey - s.oldestKey + 1

/-- `LinkedSet::RemoveTail` declared in `bwe.h`: pop the oldest element from
the back of the list (the key index follows the list). -/
def LinkedSet.RemoveTail (s : LinkedSet) : LinkedSet :=
  { s with list_ := s.list_.dropLast }

/-- Modelled from the spec: `LinkedSet::Insert` (body in `bwe.cc`, not under
`src/`), following the contract stated in `bwe.h` lines 74-81: unwrap the
arriving sequence number; if a record with that key is already in the set,
move its node to the head of the list; else add a new
`PacketIdentifierNode` at the head, calling `RemoveTail` first if the set
already reached its maximum capacity. -/
def LinkedSet.Insert (s : LinkedSet) (sequence_number : Nat)
    (send_time_ms : Int) (arrival_time_ms : Int) (payload_size : Nat) :
    LinkedSet :=
  let r := s.unwrapper_.Unwrap sequence_number
  let key := r.1
  match s.list_.find? (fun n => n.unwrapped_sequence_number == key) with
  | some node =>
    { s with
      unwrapper_ := r.2
      list_ := node :: s.list_.filter
        (fun n => !(n.unwrapped_sequence_number == key)) }
  | none =>
    let base := if s.list_.length = s.capacity_ then s.list_.dropLast
      else s.list_
    { s with
      unwrapper_ := r.2
      list_ := ⟨key, send_time_ms, arrival_time_ms, payload_size⟩ :: base }

/-- One `Insert` call's arguments: a 16-bit sequence number, the two
timestamps and the payload size. -/
structure InsOp where
  sequence_number : Nat
  send_time_ms : Int
  arrival_time_ms : Int
  payload_size : Nat
  deriving DecidableEq

/-- Run a sequence of `Insert` calls, oldest first. -/
def insertAll (s : LinkedSet) : List InsOp → LinkedSet
  | [] => s
  | o :: os =>
    insertAll
      (s.Insert o.sequence_number o.send_time_ms o.arrival_time_ms
        o.payload_size) os

/-- The unwrapped keys an unwrapper produces over a run of inserts, in call
order. -/
def runKeys (u : SeqNumUnwrapper) : List InsOp → List Int
  | [] => []
  | o :: os =>
    (u.Unwrap o.sequence_number).1 ::
      runKeys (u.Unwrap o.sequence_number).2 os

/-- `LossAccount` of `bwe.h`: the additive (total, lost) counter pair. -/
structure LossAccount where
  num_total : Nat
  num_lost : Nat
  deriving DecidableEq

/-- Modelled from the spec: `LossAccount::Add` (body in `bwe.cc`, not under
`src/`) is a pure additive merge of the two counters, no other invariant or
bounds checking. -/
def LossAccount.Add (a rhs : LossAccount) : LossAccount :=
  ⟨a.num_total + rhs.num_total, a.num_lost + rhs.num_lost⟩

/-- Modelled from the spec: `LossAccount::Subtract` (body in `bwe.cc`, not
under `src/`) subtracts both counters, meaningful only when the subtracted
account is a subset of totals previously added (the `size_t` machine
subtraction agrees with this truncated `Nat` subtraction exactly on that
documented precondition). -/
def LossAccount.Subtract (a rhs : LossAccount) : LossAccount :=
  ⟨a.num_total - rhs.num_total, a.num_lost - rhs.num_lost⟩

/-- Modelled from the spec: `LossAccount::LossRatio` (body in `bwe.cc`, not
under `src/`): `num_lost / num_total`, defined as 0 when `num_total = 0`;
the C++ `float` result is embedded as an exact rational. -/
def LossAccount.LossRatio (a : LossAccount) : ℚ :=
  if a.num_total = 0 then 0 else (a.num_lost : ℚ) / (a.num_total : ℚ)

/-- The `BweReceiver` state the global-loss query depends on: its flow id and
the lifetime loss account. -/
structure BweReceiver where
  flow_id_ : Int
  loss_account_ : LossAccount

/-- Modelled from the spec: `BweReceiver::GlobalReceiverPacketLossRatio`
(body in `bwe.cc`, not under `src/`) returns the lifetime `LossAccount`'s
ratio. -/
def BweReceiver.GlobalReceiverPacketLossRatio (r : BweReceiver) : ℚ :=
  r.loss_account_.LossRatio

/-- Addition as performed on the 32-bit-wide unsigned `size_t` counter whose
documented overflow ceiling (about 4 billion packets) `bwe.h` line 144
records. -/
def sizeTAdd (a b : Nat) : Nat := (a + b) % 2 ^ 32

/-- Modelled from the spec: the receiving rate over the most recent
`kReceivingRateTimeWindowMs = 1000` ms window — bytes observed in the window
times 8, over the window length, in kbps; 0 when the window holds no packets
(the `RateCounter` implementation is not under `src/`).  Packets are
(arrival time ms, payload bytes) pairs. -/
def recentKbps (packets : List (Int × Nat)) (now_ms : Int) : Nat :=
  ((packets.filter
      (fun p => decide (now_ms - 1000 < p.1) && decide (p.1 ≤ now_ms))).foldl
    (fun acc p => acc + p.2) 0) * 8 / 1000

/-- `BandwidthEstimatorType` of `bwe.h` lines 172-179, enumerators in
declaration order. -/
inductive BandwidthEstimatorType where
  | kNullEstimator
  | kNadaEstimator
  | kRembEstimator
  | kSendSideEstimator
  | kTcpEstimator
  | kBbrEstimator
  deriving DecidableEq

/-- The C++ enumerator value (no explicit initialisers, so 0,1,2,3,4,5 in
declaration order). -/
def BandwidthEstimatorType.val : BandwidthEstimatorType → Nat
  | .kNullEstimator => 0
  | .kNadaEstimator => 1
  | .kRembEstimator => 2
  | .kSendSideEstimator => 3
  | .kTcpEstimator => 4
  | .kBbrEstimator => 5

/-- `bwe_names` of `bwe.h` lines 181-182, indexed by enumerator value. -/
def bwe_names : List String :=
  ["Null", "NADA", "REMB", "GoogCc", "TCP", "BBR"]

/-- The unwrapper's internal consistency: the remembered unwrapped value is
congruent modulo 65536 to the remembered raw 16-bit value. -/
def UnwInv (u : SeqNumUnwrapper) : Prop :=
  ∀ v : Nat, u.last_value = some v → u.last_unwrapped % 65536 = (v : Int)

/-! ## General list lemmas -/

theorem foldl_max_ge (l : List Int) :
    ∀ b a : Int, a ≤ b ∨ a ∈ l → a ≤ l.foldl max b := by
  induction l with
  | nil =>
    intro b a h
    rcases h with h | h
    · simpa using h
    · cases h
  | cons x xs ih =>
    intro b a h
    simp only [List.foldl_cons]
    rcases h with h | h
    · exact ih (max b x) a (Or.inl (le_trans h (le_max_left b x)))
    · rcases List.mem_cons.mp h with rfl | hm
      · exact ih (max b a) a (Or.inl (le_max_right b a))
      · exact ih (max b x) a (Or.inr hm)

theorem foldl_min_le (l : List Int) :
    ∀ b a : Int, b ≤ a ∨ a ∈ l → l.foldl min b ≤ a := by
  induction l with
  | nil =>
    intro b a h
    rcases h with h | h
    · simpa using h
    · cases h
  | cons x xs ih =>
    intro b a h
    simp only [List.foldl_cons]
    rcases h with h | h
    · exact ih (min b x) a (Or.inl (le_trans (min_le_left b x) h))
    · rcases List.mem_cons.mp h with rfl | hm
      · exact ih (min b a) a (Or.inl (min_le_right b a))
      · exact ih (min b x) a (Or.inr hm)

theorem length_filter_lt_of_mem {α : Type} (p : α → Bool) (l : List α)
    (a : α) (ha : a ∈ l) (hpa : p a = false) :
    (l.filter p).length < l.length := by
  induction l with
  | nil => cases ha
  | cons x xs ih =>
    rcases List.mem_cons.mp ha with rfl | hm
    · have h1 := List.length_filter_le p xs
      simp only [List.filter_cons, hpa, Bool.false_eq_true, if_false,
        List.length_cons]
      omega
    · by_cases hx : p x
      · have := ih hm
        simp only [List.filter_cons, hx, if_true, List.length_cons]
        omega
      · have := ih hm
        simp only [List.filter_cons, hx, Bool.false_eq_true, if_false,
          List.length_cons]
        omega

theorem length_filter_bne_of_nodup (l : List Int) (a : Int)
    (hnd : l.Nodup) (ha : a ∈ l) :
    (l.filter (fun x => !(x == a))).length = l.length - 1 := by
  induction l with
  | nil => cases ha
  | cons x xs ih =>
    obtain ⟨hx, hxs⟩ := List.nodup_cons.mp hnd
    rcases List.mem_cons.mp ha with rfl | hm
    · have hrest : xs.filter (fun y => !(y == a)) = xs :=
        List.filter_eq_self.mpr (fun b hb => by
          have hba : b ≠ a := fun h => hx (h ▸ hb)
          simp [hba])
      simp [List.filter_cons, hrest]
    · have hxa : x ≠ a := fun h => hx (h ▸ hm)
      have hlen : 0 < xs.length :=
        List.length_pos.mpr (List.ne_nil_of_mem hm)
      have := ih hxs hm
      have heq : (!(x == a)) = true := by simp [hxa]
      simp only [List.filter_cons, heq, if_true, List.length_cons]
      omega

theorem map_key_filter (l : List PacketIdentifierNode) (k : Int) :
    (l.filter (fun n => !(n.unwrapped_sequence_number == k))).map
      PacketIdentifierNode.unwrapped_sequence_number
    = (l.map PacketIdentifierNode.unwrapped_sequence_number).filter
        (fun x => !(x == k)) := by
  induction l with
  | nil => rfl
  | cons x xs ih =>
    by_cases hx : x.unwrapped_sequence_number = k
    · simp [List.filter_cons, hx, ih]
    · simp [List.filter_cons, hx, ih]

theorem take_append_take (C : Nat) (A B : List Int) :
    (A ++ B.take C).take C = (A ++ B).take C := by
  rw [List.take_append_eq_append_take, List.take_append_eq_append_take,
    List.take_take]
  have : min (C - A.length) C = C - A.length := min_eq_left (Nat.sub_le C _)
  rw [this]

/-! ## Unwrapper lemmas -/

theorem UnwInv_initial : UnwInv SeqNumUnwrapper.initial := by
  intro v h
  simp [SeqNumUnwrapper.initial] at h

theorem Unwrap_eq_none (u : SeqNumUnwrapper) (v : Nat)
    (h : u.last_value = none) :
    u.Unwrap v = ((v : Int), ⟨some v, (v : Int)⟩) := by
  unfold SeqNumUnwrapper.Unwrap
  rw [h]

theorem Unwrap_eq_some (u : SeqNumUnwrapper) (v last : Nat)
    (h : u.last_value = some last) :
    u.Unwrap v =
      (u.last_unwrapped + unwrapDelta last v,
       ⟨some v, u.last_unwrapped + unwrapDelta last v⟩) := by
  unfold SeqNumUnwrapper.Unwrap unwrapDelta
  rw [h]

theorem Unwrap_fst_mod (u : SeqNumUnwrapper) (hu : UnwInv u) (v : Nat)
    (hv : v < 65536) : (u.Unwrap v).1 % 65536 = (v : Int) := by
  cases hl : u.last_value with
  | none =>
    rw [Unwrap_eq_none u v hl]
    omega
  | some last =>
    have hmod := hu last hl
    rw [Unwrap_eq_some u v last hl]
    unfold unwrapDelta
    split <;> omega

theorem Unwrap_snd_inv (u : SeqNumUnwrapper) (hu : UnwInv u) (v : Nat)
    (hv : v < 65536) : UnwInv (u.Unwrap v).2 := by
  intro w hw
  cases hl : u.last_value with
  | none =>
    rw [Unwrap_eq_none u v hl] at hw ⊢
    simp only [Option.some.injEq] at hw
    obtain rfl := hw
    dsimp only
    omega
  | some last =>
    have hmod := hu last hl
    rw [Unwrap_eq_some u v last hl] at hw ⊢
    simp only [Option.some.injEq] at hw
    obtain rfl := hw
    dsimp only
    unfold unwrapDelta
    split <;> omega

/-! ## runKeys lemmas -/

theorem runKeys_length (ops : List InsOp) :
    ∀ u : SeqNumUnwrapper, (runKeys u ops).length = ops.length := by
  induction ops with
  | nil => intro u; rfl
  | cons o os ih =>
    intro u
    simp [runKeys, ih]

theorem runKeys_mod (ops : List InsOp) :
    ∀ u : SeqNumUnwrapper, UnwInv u →
    (∀ o ∈ ops, o.sequence_number < 65536) →
    (runKeys u ops).map (fun k => k % 65536) =
      ops.map (fun o => (o.sequence_number : Int)) := by
  induction ops with
  | nil => intro u _ _; rfl
  | cons o os ih =>
    intro u hu hb
    have hv : o.sequence_number < 65536 := hb o (List.mem_cons_self o os)
    simp only [runKeys, List.map_cons]
    rw [Unwrap_fst_mod u hu o.sequence_number hv,
      ih _ (Unwrap_snd_inv u hu o.sequence_number hv)
        (fun x hx => hb x (List.mem_cons_of_mem o hx))]

theorem runKeys_nodup (ops : List InsOp) (u : SeqNumUnwrapper)
    (hu : UnwInv u) (hb : ∀ o ∈ ops, o.sequence_number < 65536)
    (hnd : (ops.map InsOp.sequence_number).Nodup) :
    (runKeys u ops).Nodup := by
  apply List.Nodup.of_map (fun k : Int => k % 65536)
  rw [runKeys_mod ops u hu hb]
  have hmm : ops.map (fun o => (o.sequence_number : Int)) =
      (ops.map InsOp.sequence_number).map (fun n : Nat => (n : Int)) := by
    rw [List.map_map]
    rfl
  rw [hmm]
  exact hnd.map Nat.cast_injective

/-! ## Insert characterisation -/

theorem find?_key_eq_none (s : LinkedSet) (k : Int) (hmem : k ∉ s.keys) :
    s.list_.find? (fun n => n.unwrapped_sequence_number == k) = none := by
  apply List.find?_eq_none.mpr
  intro n hn
  simp only [beq_iff_eq]
  intro hkey
  exact hmem (List.mem_map.mpr ⟨n, hn, hkey⟩)

theorem Insert_eq_dup (s : LinkedSet) (q : Nat) (t1 t2 : Int) (p : Nat)
    (node : PacketIdentifierNode)
    (hf : s.list_.find?
      (fun n => n.unwrapped_sequence_number == (s.unwrapper_.Unwrap q).1) =
      some node) :
    s.Insert q t1 t2 p =
      { s with
        unwrapper_ := (s.unwrapper_.Unwrap q).2
        list_ := node :: s.list_.filter
          (fun n => !(n.unwrapped_sequence_number ==
            (s.unwrapper_.Unwrap q).1)) } := by
  unfold LinkedSet.Insert
  simp only [hf]

theorem Insert_eq_fresh (s : LinkedSet) (q : Nat) (t1 t2 : Int) (p : Nat)
    (hf : s.list_.find?
      (fun n => n.unwrapped_sequence_number == (s.unwrapper_.Unwrap q).1) =
      none) :
    s.Insert q t1 t2 p =
      { s with
        unwrapper_ := (s.unwrapper_.Unwrap q).2
        list_ := ⟨(s.unwrapper_.Unwrap q).1, t1, t2, p⟩ ::
          (if s.list_.length = s.capacity_ then s.list_.dropLast
           else s.list_) } := by
  unfold LinkedSet.Insert
  simp only [hf]

theorem Insert_unwrapper (s : LinkedSet) (q : Nat) (t1 t2 : Int) (p : Nat) :
    (s.Insert q t1 t2 p).unwrapper_ = (s.unwrapper_.Unwrap q).2 := by
  cases hf : s.list_.find?
      (fun n => n.unwrapped_sequence_number == (s.unwrapper_.Unwrap q).1) with
  | none => rw [Insert_eq_fresh s q t1 t2 p hf]
  | some node => rw [Insert_eq_dup s q t1 t2 p node hf]

theorem Insert_capacity (s : LinkedSet) (q : Nat) (t1 t2 : Int) (p : Nat) :
    (s.Insert q t1 t2 p).capacity_ = s.capacity_ := by
  cases hf : s.list_.find?
      (fun n => n.unwrapped_sequence_number == (s.unwrapper_.Unwrap q).1) with
  | none => rw [Insert_eq_fresh s q t1 t2 p hf]
  | some node => rw [Insert_eq_dup s q t1 t2 p node hf]

theorem keys_Insert_dup (s : LinkedSet) (q : Nat) (t1 t2 : Int) (p : Nat)
    (hmem : (s.unwrapper_.Unwrap q).1 ∈ s.keys) :
    (s.Insert q t1 t2 p).keys =
      (s.unwrapper_.Unwrap q).1 ::
        s.keys.filter (fun x => !(x == (s.unwrapper_.Unwrap q).1)) := by
  cases hf : s.list_.find?
      (fun n => n.unwrapped_sequence_number == (s.unwrapper_.Unwrap q).1) with
  | none =>
    exfalso
    obtain ⟨n, hn, hkey⟩ := List.mem_map.mp hmem
    have := List.find?_eq_none.mp hf n hn
    simp [hkey] at this
  | some node =>
    have hkey : node.unwrapped_sequence_number = (s.unwrapper_.Unwrap q).1 := by
      have := List.find?_some hf
      simpa using this
    rw [Insert_eq_dup s q t1 t2 p node hf]
    simp [LinkedSet.keys, map_key_filter, hkey]

theorem keys_Insert_fresh (s : LinkedSet) (q : Nat) (t1 t2 : Int) (p : Nat)
    (hmem : (s.unwrapper_.Unwrap q).1 ∉ s.keys)
    (hle : s.size ≤ s.capacity_) (hC : 0 < s.capacity_) :
    (s.Insert q t1 t2 p).keys =
      ((s.unwrapper_.Unwrap q).1 :: s.keys).take s.capacity_ := by
  rw [Insert_eq_fresh s q t1 t2 p (find?_key_eq_none s _ hmem)]
  by_cases hfull : s.list_.length = s.capacity_
  · have hC' : s.capacity_ - 1 + 1 = s.capacity_ := Nat.succ_pred_eq_of_pos hC
    simp only [LinkedSet.keys, hfull, if_true, List.map_cons, List.map_dropLast]
    rw [List.dropLast_eq_take, List.length_map, hfull]
    conv_rhs => rw [← hC']
    rw [List.take_succ_cons]
  · have hlt : s.list_.length < s.capacity_ := lt_of_le_of_ne hle hfull
    simp only [LinkedSet.keys, hfull, if_false, List.map_cons]
    rw [eq_comm]
    apply List.take_of_length_le
    simp only [List.length_cons, List.length_map]
    omega

theorem keys_Insert_nodup (s : LinkedSet) (q : Nat) (t1 t2 : Int) (p : Nat)
    (hnd : s.keys.Nodup) : (s.Insert q t1 t2 p).keys.Nodup := by
  by_cases hmem : (s.unwrapper_.Unwrap q).1 ∈ s.keys
  · rw [keys_Insert_dup s q t1 t2 p hmem]
    refine List.nodup_cons.mpr ⟨?_, hnd.filter _⟩
    intro hin
    have := List.of_mem_filter hin
    simp at this
  · rw [Insert_eq_fresh s q t1 t2 p (find?_key_eq_none s _ hmem)]
    by_cases hfull : s.list_.length = s.capacity_ <;>
      simp only [LinkedSet.keys, hfull, if_true, if_false, List.map_cons] <;>
      refine List.nodup_cons.mpr ⟨?_, ?_⟩
    · rw [List.map_dropLast]
      intro hin
      exact hmem ((List.dropLast_sublist _).subset hin)
    · rw [List.map_dropLast]
      exact (List.dropLast_sublist _).nodup hnd
    · exact hmem
    · exact hnd

/-! ## Size and Nodup through insertAll -/

theorem keys_length (s : LinkedSet) : s.keys.length = s.size :=
  List.length_map _ _

theorem size_Insert_le (s : LinkedSet) (q : Nat) (t1 t2 : Int) (p : Nat)
    (hC : 0 < s.capacity_) (hle : s.size ≤ s.capacity_) :
    (s.Insert q t1 t2 p).size ≤ s.capacity_ := by
  rw [← keys_length]
  by_cases hmem : (s.unwrapper_.Unwrap q).1 ∈ s.keys
  · rw [keys_Insert_dup s q t1 t2 p hmem]
    have hlt : (s.keys.filter
        (fun x => !(x == (s.unwrapper_.Unwrap q).1))).length <
        s.keys.length :=
      length_filter_lt_of_mem _ s.keys _ hmem (by simp)
    have hkl : s.keys.length ≤ s.capacity_ := by rw [keys_length]; exact hle
    simp only [List.length_cons]
    omega
  · rw [keys_Insert_fresh s q t1 t2 p hmem hle hC]
    rw [List.length_take]
    exact min_le_left _ _

theorem insertAll_capacity (ops : List InsOp) :
    ∀ s : LinkedSet, (insertAll s ops).capacity_ = s.capacity_ := by
  induction ops with
  | nil => intro s; rfl
  | cons o os ih =>
    intro s
    show (insertAll (s.Insert _ _ _ _) os).capacity_ = s.capacity_
    rw [ih, Insert_capacity]

theorem size_insertAll_le (ops : List InsOp) :
    ∀ s : LinkedSet, 0 < s.capacity_ → s.size ≤ s.capacity_ →
    (insertAll s ops).size ≤ s.capacity_ := by
  induction ops with
  | nil => intro s _ hle; exact hle
  | cons o os ih =>
    intro s hC hle
    show (insertAll (s.Insert _ _ _ _) os).size ≤ s.capacity_
    have hcap := Insert_capacity s o.sequence_number o.send_time_ms
      o.arrival_time_ms o.payload_size
    have h1 := ih (s.Insert o.sequence_number o.send_time_ms
      o.arrival_time_ms o.payload_size) (by rw [hcap]; exact hC)
      (by rw [hcap]; exact size_Insert_le s _ _ _ _ hC hle)
    rw [hcap] at h1
    exact h1

theorem keys_insertAll_nodup (ops : List InsOp) :
    ∀ s : LinkedSet, s.keys.Nodup → (insertAll s ops).keys.Nodup := by
  induction ops with
  | nil => intro s hnd; exact hnd
  | cons o os ih =>
    intro s hnd
    exact ih _ (keys_Insert_nodup s _ _ _ _ hnd)

/-! ## The keys kept after a run of fresh inserts -/

theorem insertAll_keys (ops : List InsOp) : ∀ s : LinkedSet,
    (runKeys s.unwrapper_ ops).Nodup →
    (∀ k ∈ runKeys s.unwrapper_ ops, k ∉ s.keys) →
    0 < s.capacity_ → s.size ≤ s.capacity_ →
    (insertAll s ops).keys =
      ((runKeys s.unwrapper_ ops).reverse ++ s.keys).take s.capacity_ := by
  induction ops with
  | nil =>
    intro s _ _ _ hle
    simp only [insertAll, runKeys, List.reverse_nil, List.nil_append]
    rw [eq_comm]
    exact List.take_of_length_le (by rw [keys_length]; exact hle)
  | cons o os ih =>
    intro s hnd hfresh hC hle
    have hk0 : (s.unwrapper_.Unwrap o.sequence_number).1 ∉ s.keys :=
      hfresh _ (by simp [runKeys])
    have hstep := keys_Insert_fresh s o.sequence_number o.send_time_ms
      o.arrival_time_ms o.payload_size hk0 hle hC
    have hcap := Insert_capacity s o.sequence_number o.send_time_ms
      o.arrival_time_ms o.payload_size
    have hunw := Insert_unwrapper s o.sequence_number o.send_time_ms
      o.arrival_time_ms o.payload_size
    have hrk : runKeys s.unwrapper_ (o :: os) =
        (s.unwrapper_.Unwrap o.sequence_number).1 ::
          runKeys ((s.Insert o.sequence_number o.send_time_ms
            o.arrival_time_ms o.payload_size).unwrapper_) os := by
      rw [hunw]
      rfl
    rw [hrk] at hnd hfresh
    obtain ⟨hndk0, hndrest⟩ := List.nodup_cons.mp hnd
    have hfresh2 : ∀ k ∈ runKeys ((s.Insert o.sequence_number o.send_time_ms
        o.arrival_time_ms o.payload_size).unwrapper_) os,
        k ∉ (s.Insert o.sequence_number o.send_time_ms o.arrival_time_ms
          o.payload_size).keys := by
      intro k hk hkin
      rw [hstep] at hkin
      have hkin2 := List.take_subset _ _ hkin
      rcases List.mem_cons.mp hkin2 with rfl | hkin3
      · exact hndk0 hk
      · exact hfresh k (List.mem_cons_of_mem _ hk) hkin3
    have hsize2 : (s.Insert o.sequence_number o.send_time_ms
        o.arrival_time_ms o.payload_size).size ≤
        (s.Insert o.sequence_number o.send_time_ms o.arrival_time_ms
          o.payload_size).capacity_ := by
      rw [hcap]
      exact size_Insert_le s _ _ _ _ hC hle
    have hIH := ih (s.Insert o.sequence_number o.send_time_ms
      o.arrival_time_ms o.payload_size) hndrest hfresh2
      (by rw [hcap]; exact hC) hsize2
    show (insertAll (s.Insert o.sequence_number o.send_time_ms
      o.arrival_time_ms o.payload_size) os).keys = _
    rw [hIH, hcap, hstep, hrk, List.reverse_cons, List.append_assoc,
      List.singleton_append]
    exact take_append_take s.capacity_ _ _

/-! ## Size bounded by Range -/

theorem size_le_Range_of_nodup (s : LinkedSet) (hnd : s.keys.Nodup)
    (hne : s.empty = false) : (s.size : Int) ≤ s.Range := by
  have hlist : ¬ s.list_.isEmpty := by
    rw [LinkedSet.empty] at hne
    simp [hne]
  rcases hks : s.keys with _ | ⟨k, t⟩
  · exfalso
    apply hlist
    rw [List.isEmpty_iff]
    have := congrArg List.length hks
    rw [keys_length] at this
    exact List.length_eq_zero.mp this
  · have hM : ∀ a ∈ k :: t, a ≤ t.foldl max k := by
      intro a ha
      rcases List.mem_cons.mp ha with rfl | hm
      · exact foldl_max_ge t a a (Or.inl le_rfl)
      · exact foldl_max_ge t k a (Or.inr hm)
    have hm : ∀ a ∈ k :: t, t.foldl min k ≤ a := by
      intro a ha
      rcases List.mem_cons.mp ha with rfl | hmm
      · exact foldl_min_le t a a (Or.inl le_rfl)
      · exact foldl_min_le t k a (Or.inr hmm)
    have hsub : (k :: t).toFinset ⊆
        Finset.Icc (t.foldl min k) (t.foldl max k) := by
      intro a ha
      rw [List.mem_toFinset] at ha
      rw [Finset.mem_Icc]
      exact ⟨hm a ha, hM a ha⟩
    have hndk : (k :: t).Nodup := hks ▸ hnd
    have hcard : (k :: t).length ≤
        (Finset.Icc (t.foldl min k) (t.foldl max k)).card := by
      rw [← List.toFinset_card_of_nodup hndk]
      exact Finset.card_le_card hsub
    rw [Int.card_Icc] at hcard
    have hkk : t.foldl min k ≤ t.foldl max k :=
      le_trans (hm k (List.mem_cons_self k t)) (hM k (List.mem_cons_self k t))
    have hsz : s.size = (k :: t).length := by
      rw [← keys_length, hks]
    have hRange : s.Range = t.foldl max k - t.foldl min k + 1 := by
      rw [LinkedSet.Range, if_neg hlist, LinkedSet.newestKey,
        LinkedSet.oldestKey, hks]
    rw [hsz, hRange]
    omega

/-! ## Auxiliary lemmas for the claims -/

theorem foldl_sizeTAdd (l : List Nat) :
    ∀ a : Nat, a + l.sum < 2 ^ 32 → l.foldl sizeTAdd a = a + l.sum := by
  induction l with
  | nil => intro a _; simp
  | cons x xs ih =>
    intro a h
    rw [List.sum_cons] at h
    have hax : a + x < 2 ^ 32 := by omega
    show xs.foldl sizeTAdd (sizeTAdd a x) = _
    rw [show sizeTAdd a x = a + x from Nat.mod_eq_of_lt hax]
    rw [ih (a + x) (by omega), List.sum_cons]
    omega

/-! ## The claims -/

/-- C1: for every sequence of `Insert` calls on a `LinkedSet` of capacity
`C > 0`, after each call `size() ≤ C`; and after more than `C` insertions
with pairwise-distinct sequence numbers the least-recently-touched key (the
first one inserted) is no longer present: exactly the least-recently-used
record is evicted by `RemoveTail` whenever an insertion would exceed
capacity. -/
theorem linkedset_size_bounded_and_lru_evicted (C : Nat) (hC : 0 < C)
    (ops : List InsOp) :
    (∀ pre : List InsOp, (insertAll (LinkedSet.init C) pre).size ≤ C) ∧
    ((∀ o ∈ ops, o.sequence_number < 65536) →
      (ops.map InsOp.sequence_number).Nodup →
      C < ops.length →
      ∀ (o₀ : InsOp) (rest : List InsOp), ops = o₀ :: rest →
        (o₀.sequence_number : Int) ∉
          (insertAll (LinkedSet.init C) ops).keys) := by
  constructor
  · intro pre
    exact size_insertAll_le pre (LinkedSet.init C) hC (Nat.zero_le C)
  · intro hbound hnd hlen o₀ rest hops
    have hrknd : (runKeys (LinkedSet.init C).unwrapper_ ops).Nodup :=
      runKeys_nodup ops _ UnwInv_initial hbound hnd
    have hkeys := insertAll_keys ops (LinkedSet.init C) hrknd
      (fun k _ hk => by simp [LinkedSet.init, LinkedSet.keys] at hk)
      hC (Nat.zero_le C)
    have hinitkeys : (LinkedSet.init C).keys = [] := rfl
    rw [hinitkeys, List.append_nil,
      show (LinkedSet.init C).capacity_ = C from rfl] at hkeys
    rw [hkeys]
    have hrk0 : runKeys (LinkedSet.init C).unwrapper_ ops =
        (o₀.sequence_number : Int) ::
          runKeys ((LinkedSet.init C).unwrapper_.Unwrap
            o₀.sequence_number).2 rest := by
      rw [hops]
      show (((LinkedSet.init C).unwrapper_.Unwrap o₀.sequence_number).1) :: _
          = _
      rw [Unwrap_eq_none _ _ rfl]
    rw [hrk0]
    rw [List.reverse_cons]
    have hlenrest :
        C ≤ (runKeys ((LinkedSet.init C).unwrapper_.Unwrap
          o₀.sequence_number).2 rest).reverse.length := by
      rw [List.length_reverse, runKeys_length]
      have : ops.length = rest.length + 1 := by rw [hops]; rfl
      omega
    rw [List.take_append_of_le_length hlenrest]
    intro hin
    have hndrev : ((runKeys ((LinkedSet.init C).unwrapper_.Unwrap
        o₀.sequence_number).2 rest).reverse ++
        [(o₀.sequence_number : Int)]).Nodup := by
      rw [← List.reverse_cons, List.nodup_reverse, ← hrk0]
      exact hrknd
    obtain ⟨-, -, hdisj⟩ := List.nodup_append.mp hndrev
    exact hdisj (List.take_subset _ _ hin) (List.mem_singleton.mpr rfl)

theorem linkedset_size_bounded_and_lru_evicted_witness :
    (insertAll (LinkedSet.init 2)
      [⟨5, 0, 0, 0⟩, ⟨6, 0, 0, 0⟩, ⟨7, 0, 0, 0⟩]).size ≤ 2 ∧
    (5 : Int) ∉ (insertAll (LinkedSet.init 2)
      [⟨5, 0, 0, 0⟩, ⟨6, 0, 0, 0⟩, ⟨7, 0, 0, 0⟩]).keys := by
  constructor
  · exact (linkedset_size_bounded_and_lru_evicted 2 (by decide)
      [⟨5, 0, 0, 0⟩, ⟨6, 0, 0, 0⟩, ⟨7, 0, 0, 0⟩]).1 _
  · exact (linkedset_size_bounded_and_lru_evicted 2 (by decide)
      [⟨5, 0, 0, 0⟩, ⟨6, 0, 0, 0⟩, ⟨7, 0, 0, 0⟩]).2 (by decide) (by decide)
      (by decide) ⟨5, 0, 0, 0⟩ [⟨6, 0, 0, 0⟩, ⟨7, 0, 0, 0⟩] rfl

/-- C2: inserting a sequence number whose unwrapped key is already present
leaves `size()` unchanged, creates no duplicate (the key occurs exactly
once), and moves the existing record to the most-recent (head) position,
which is what subsequent eviction order observes. -/
theorem insert_existing_key_idempotent (s : LinkedSet) (q : Nat)
    (t1 t2 : Int) (p : Nat)
    (hmem : (s.unwrapper_.Unwrap q).1 ∈ s.keys) (hnd : s.keys.Nodup) :
    (s.Insert q t1 t2 p).size = s.size ∧
    (s.Insert q t1 t2 p).keys =
      (s.unwrapper_.Unwrap q).1 ::
        s.keys.filter (fun x => !(x == (s.unwrapper_.Unwrap q).1)) ∧
    (s.Insert q t1 t2 p).keys.head? = some (s.unwrapper_.Unwrap q).1 ∧
    (s.Insert q t1 t2 p).keys.count (s.unwrapper_.Unwrap q).1 = 1 := by
  have hkeys := keys_Insert_dup s q t1 t2 p hmem
  have hfl := length_filter_bne_of_nodup s.keys _ hnd hmem
  have hpos : 0 < s.keys.length :=
    List.length_pos.mpr (List.ne_nil_of_mem hmem)
  refine ⟨?_, hkeys, ?_, ?_⟩
  · rw [← keys_length, ← keys_length, hkeys]
    simp only [List.length_cons]
    omega
  · rw [hkeys]
    rfl
  · rw [hkeys, List.count_cons_self]
    have hzero : (s.keys.filter
        (fun x => !(x == (s.unwrapper_.Unwrap q).1))).count
        (s.unwrapper_.Unwrap q).1 = 0 := by
      apply List.count_eq_zero.mpr
      intro hin
      have := List.of_mem_filter hin
      simp at this
    omega

theorem insert_existing_key_idempotent_witness :
    ((insertAll (LinkedSet.init 3)
      [⟨5, 0, 0, 0⟩, ⟨6, 0, 0, 0⟩]).Insert 5 9 9 9).size =
      (insertAll (LinkedSet.init 3) [⟨5, 0, 0, 0⟩, ⟨6, 0, 0, 0⟩]).size ∧
    ((insertAll (LinkedSet.init 3)
      [⟨5, 0, 0, 0⟩, ⟨6, 0, 0, 0⟩]).Insert 5 9 9 9).keys.head? =
      some 5 := by
  have h := insert_existing_key_idempotent
    (insertAll (LinkedSet.init 3) [⟨5, 0, 0, 0⟩, ⟨6, 0, 0, 0⟩]) 5 9 9 9
    (by decide) (by decide)
  refine ⟨h.1, ?_⟩
  rw [h.2.2.1]
  decide

/-- C3: `Range()` is 0 on the empty set and otherwise the newest unwrapped
sequence number minus the oldest unwrapped sequence number plus 1; on the
set holding exactly the unwrapped keys 5, 7, 9 it returns 5 while `size()`
is 3, so `Range() - size() = 2` sequence numbers in the span were never
observed. -/
theorem range_span_width :
    (∀ s : LinkedSet, s.empty = true → s.Range = 0) ∧
    (∀ s : LinkedSet, s.empty = false →
      s.Range = s.newestKey - s.oldestKey + 1) ∧
    (insertAll (LinkedSet.init 10)
      [⟨5, 0, 0, 0⟩, ⟨7, 0, 0, 0⟩, ⟨9, 0, 0, 0⟩]).Range = 5 ∧
    (insertAll (LinkedSet.init 10)
      [⟨5, 0, 0, 0⟩, ⟨7, 0, 0, 0⟩, ⟨9, 0, 0, 0⟩]).size = 3 ∧
    (insertAll (LinkedSet.init 10)
      [⟨5, 0, 0, 0⟩, ⟨7, 0, 0, 0⟩, ⟨9, 0, 0, 0⟩]).Range -
      ((insertAll (LinkedSet.init 10)
        [⟨5, 0, 0, 0⟩, ⟨7, 0, 0, 0⟩, ⟨9, 0, 0, 0⟩]).size : Int) = 2 := by
  refine ⟨?_, ?_, by decide, by decide, by decide⟩
  · intro s h
    rw [LinkedSet.empty] at h
    rw [LinkedSet.Range, if_pos h]
  · intro s h
    rw [LinkedSet.empty] at h
    rw [LinkedSet.Range, if_neg]
    simp [h]

theorem range_span_width_witness :
    (LinkedSet.init 4).Range = 0 ∧
    (insertAll (LinkedSet.init 10)
      [⟨5, 0, 0, 0⟩, ⟨7, 0, 0, 0⟩, ⟨9, 0, 0, 0⟩]).Range =
      (insertAll (LinkedSet.init 10)
        [⟨5, 0, 0, 0⟩, ⟨7, 0, 0, 0⟩, ⟨9, 0, 0, 0⟩]).newestKey -
      (insertAll (LinkedSet.init 10)
        [⟨5, 0, 0, 0⟩, ⟨7, 0, 0, 0⟩, ⟨9, 0, 0, 0⟩]).oldestKey + 1 := by
  refine ⟨range_span_width.1 (LinkedSet.init 4) rfl, ?_⟩
  exact range_span_width.2.1 _ (by decide)

/-- C4: inserting the 16-bit sequence numbers 65534, 65535, 0, 1 in that
arrival order produces the strictly increasing unwrapped values 65534,
65535, 65536, 65537 (consecutive values differ by exactly 1, no
discontinuity across the wrap), and `Range()` over the resulting set is
4. -/
theorem wraparound_unwrap_monotonic :
    runKeys SeqNumUnwrapper.initial
      [⟨65534, 0, 0, 0⟩, ⟨65535, 0, 0, 0⟩, ⟨0, 0, 0, 0⟩, ⟨1, 0, 0, 0⟩] =
      [65534, 65535, 65536, 65537] ∧
    List.Pairwise (fun a b : Int => a < b)
      (runKeys SeqNumUnwrapper.initial
        [⟨65534, 0, 0, 0⟩, ⟨65535, 0, 0, 0⟩, ⟨0, 0, 0, 0⟩, ⟨1, 0, 0, 0⟩]) ∧
    (insertAll (LinkedSet.init 10)
      [⟨65534, 0, 0, 0⟩, ⟨65535, 0, 0, 0⟩, ⟨0, 0, 0, 0⟩,
        ⟨1, 0, 0, 0⟩]).Range = 4 := by
  refine ⟨by decide, by decide, by decide⟩

/-- C5: `LossAccount::LossRatio` is `num_lost / num_total` whenever
`num_total > 0` and 0 when `num_total = 0`; in particular
`LossAccount(10,3).LossRatio() = 0.3` and `LossAccount(0,0).LossRatio() =
0`, and the function is total (never throws). -/
theorem lossratio_quotient_or_zero :
    (∀ a : LossAccount, a.num_total = 0 → a.LossRatio = 0) ∧
    (∀ a : LossAccount, a.num_total ≠ 0 →
      a.LossRatio = (a.num_lost : ℚ) / (a.num_total : ℚ)) ∧
    LossAccount.LossRatio ⟨10, 3⟩ = (0.3 : ℚ) ∧
    LossAccount.LossRatio ⟨0, 0⟩ = 0 := by
  refine ⟨?_, ?_, ?_, ?_⟩
  · intro a h
    rw [LossAccount.LossRatio, if_pos h]
  · intro a h
    rw [LossAccount.LossRatio, if_neg h]
  · rw [LossAccount.LossRatio]
    norm_num
  · rfl

theorem lossratio_quotient_or_zero_witness :
    LossAccount.LossRatio ⟨0, 7⟩ = 0 ∧
    LossAccount.LossRatio ⟨4, 1⟩ = ((1 : ℚ) / (4 : ℚ)) := by
  constructor
  · exact lossratio_quotient_or_zero.1 ⟨0, 7⟩ rfl
  · have h := lossratio_quotient_or_zero.2.1 ⟨4, 1⟩ (by decide)
    simpa using h

/-- C6: `LossAccount::Add` is commutative — `a.Add(b)` leaves the same
`(num_total, num_lost)` as `b.Add(a)` — and `Add`/`Subtract` are pure
additive merges on the two counters with no other invariant or bounds
checking. -/
theorem lossaccount_add_commutative :
    (∀ a b : LossAccount, a.Add b = b.Add a) ∧
    (∀ a b : LossAccount,
      (a.Add b).num_total = a.num_total + b.num_total ∧
      (a.Add b).num_lost = a.num_lost + b.num_lost) ∧
    (∀ a b : LossAccount,
      (a.Subtract b).num_total = a.num_total - b.num_total ∧
      (a.Subtract b).num_lost = a.num_lost - b.num_lost) := by
  refine ⟨?_, fun a b => ⟨rfl, rfl⟩, fun a b => ⟨rfl, rfl⟩⟩
  intro a b
  rw [LossAccount.Add, LossAccount.Add, Nat.add_comm a.num_total,
    Nat.add_comm a.num_lost]

/-- C7: no operation of the embedded core throws (all are total functions);
constructing a `LinkedSet` with capacity 0 (or negative) is rejected by the
constructor as a contract violation while every positive capacity is
accepted; and the degenerate-but-valid states — empty set, zero totals, an
empty rate window — yield the neutral values 0 loss ratio, 0 range and 0
rate instead of an error. -/
theorem construction_rejects_zero_capacity :
    LinkedSet.create 0 = none ∧
    (∀ c : Int, c ≤ 0 → LinkedSet.create c = none) ∧
    (∀ c : Int, 0 < c →
      LinkedSet.create c = some (LinkedSet.init c.toNat)) ∧
    (∀ C : Nat, (LinkedSet.init C).size = 0 ∧
      (LinkedSet.init C).Range = 0 ∧ (LinkedSet.init C).empty = true) ∧
    LossAccount.LossRatio ⟨0, 0⟩ = 0 ∧
    (∀ now_ms : Int, recentKbps [] now_ms = 0) := by
  refine ⟨rfl, ?_, ?_, fun C => ⟨rfl, rfl, rfl⟩, rfl,
    fun now_ms => by simp [recentKbps]⟩
  · intro c h
    rw [LinkedSet.create, if_pos h]
  · intro c h
    rw [LinkedSet.create, if_neg (by omega)]

theorem construction_rejects_zero_capacity_witness :
    LinkedSet.create (-3) = none ∧
    LinkedSet.create 7 = some (LinkedSet.init 7) ∧
    recentKbps [] 1234 = 0 := by
  refine ⟨construction_rejects_zero_capacity.2.1 (-3) (by decide),
    ?_, construction_rejects_zero_capacity.2.2.2.2.2 1234⟩
  have h := construction_rejects_zero_capacity.2.2.1 7 (by decide)
  simpa using h

/-- C8: `BweReceiver::GlobalReceiverPacketLossRatio` returns the lifetime
`LossAccount`'s ratio; the unsigned total counter accumulated with 32-bit
`size_t` arithmetic equals the true packet count for flows of fewer than
`2^32 ≈ 4·10⁹` packets — the documented ceiling — and nothing enforces it:
at the ceiling the counter silently wraps to 0. -/
theorem global_loss_ratio_lifetime_account :
    (∀ r : BweReceiver,
      r.GlobalReceiverPacketLossRatio = r.loss_account_.LossRatio) ∧
    (∀ counts : List Nat, counts.sum < 2 ^ 32 →
      counts.foldl sizeTAdd 0 = counts.sum) ∧
    sizeTAdd (2 ^ 32 - 1) 1 = 0 := by
  refine ⟨fun r => rfl, ?_, ?_⟩
  · intro counts h
    rw [foldl_sizeTAdd counts 0 (by omega)]
    omega
  · rw [sizeTAdd]
    norm_num

theorem global_loss_ratio_lifetime_account_witness :
    (BweReceiver.GlobalReceiverPacketLossRatio ⟨1, ⟨10, 3⟩⟩ =
      LossAccount.LossRatio ⟨10, 3⟩) ∧
    List.foldl sizeTAdd 0 [3, 1, 2] = [3, 1, 2].sum := by
  exact ⟨global_loss_ratio_lifetime_account.1 ⟨1, ⟨10, 3⟩⟩,
    global_loss_ratio_lifetime_account.2.1 [3, 1, 2] (by norm_num)⟩

/-- C9: in every state reachable by `Insert` calls from a freshly
constructed `LinkedSet`, if the set is non-empty then `Range() ≥ size()`:
the stored keys are pairwise-distinct integers lying between the oldest and
the newest key, so the derived expected-loss count `Range() - size()` is
never negative. -/
theorem nonempty_range_ge_size (C : Nat) (ops : List InsOp)
    (hne : (insertAll (LinkedSet.init C) ops).empty = false) :
    ((insertAll (LinkedSet.init C) ops).size : Int) ≤
      (insertAll (LinkedSet.init C) ops).Range :=
  size_le_Range_of_nodup _
    (keys_insertAll_nodup ops (LinkedSet.init C) List.nodup_nil) hne

theorem nonempty_range_ge_size_witness :
    (insertAll (LinkedSet.init 3)
      [⟨5, 0, 0, 0⟩, ⟨9, 0, 0, 0⟩]).empty = false ∧
    ((insertAll (LinkedSet.init 3)
      [⟨5, 0, 0, 0⟩, ⟨9, 0, 0, 0⟩]).size : Int) ≤
      (insertAll (LinkedSet.init 3) [⟨5, 0, 0, 0⟩, ⟨9, 0, 0, 0⟩]).Range :=
  ⟨by decide,
    nonempty_range_ge_size 3 [⟨5, 0, 0, 0⟩, ⟨9, 0, 0, 0⟩] (by decide)⟩

/-- C10: the `bwe_names` table has exactly one entry per
`BandwidthEstimatorType` enumerator, indexed by the enumerator's value:
kNullEstimator→"Null", kNadaEstimator→"NADA", kRembEstimator→"REMB",
kSendSideEstimator→"GoogCc", kTcpEstimator→"TCP", kBbrEstimator→"BBR"; in
particular the send-side variant is publicly named "GoogCc", not
"send-side". -/
theorem bwe_names_table_correspondence :
    bwe_names.length = 6 ∧
    bwe_names.get? BandwidthEstimatorType.kNullEstimator.val =
      some "Null" ∧
    bwe_names.get? BandwidthEstimatorType.kNadaEstimator.val =
      some "NADA" ∧
    bwe_names.get? BandwidthEstimatorType.kRembEstimator.val =
      some "REMB" ∧
    bwe_names.get? BandwidthEstimatorType.kSendSideEstimator.val =
      some "GoogCc" ∧
    bwe_names.get? BandwidthEstimatorType.kTcpEstimator.val =
      some "TCP" ∧
    bwe_names.get? BandwidthEstimatorType.kBbrEstimator.val =
      some "BBR" ∧
    "GoogCc" ≠ "send-side" := by
  refine ⟨rfl, rfl, rfl, rfl, rfl, rfl, rfl, by decide⟩

end Bwe
